import Mathlib

/-!
Verification development for the BililiveRecorder-Player repository.

The definitions below are a shallow embedding of the Player component
(`components/Player.tsx`) and the data model (`types.ts`): JavaScript
numbers are modelled as exact rationals, strings as Lean strings, and the
stateful React effects as pure functions on explicit state.
-/

namespace BiliPlayer

/-- Embedding of the `DanmakuItem` interface from `types.ts`. -/
structure DanmakuItem where
  time : ℚ
  type : Nat
  size : Nat
  color : Nat
  timestamp : Nat
  pool : Nat
  uid : String
  rowId : String
  content : String
  senderName : Option String
  medalName : Option String
  medalLevel : Option Nat
  medalColorBorder : Option String
  trackIndex : Nat
  emots : Option (List (String × String))
  stickerUrl : Option String
  deriving DecidableEq, Repr

/-- A `DanmakuItem` enriched with the computed `actualDuration` field, as
produced by the `.map` stage of `activeOverlayDanmaku`. -/
structure ActiveDanmaku extends DanmakuItem where
  actualDuration : ℚ
  deriving DecidableEq, Repr

/-- `intrinsicFactor` from `activeOverlayDanmaku`:
`clampedLen = min(max(len, 1), 10)`, `ratio = (clampedLen - 1) / 9`,
`factor = 1.0 - ratio * 0.25`. -/
def intrinsicFactor (len : Nat) : ℚ :=
  let clampedLen : Nat := min (max len 1) 10
  let ratio : ℚ := ((clampedLen : ℚ) - 1) / 9
  1 - ratio * (1 / 4)

/-- `actualDuration = BASE_DURATION / (speed * intrinsicFactor)` with
`BASE_DURATION = 16` and `len = d.content.length || 1`. -/
def computeDuration (speed : ℚ) (content : String) : ℚ :=
  let len : Nat := if content.length = 0 then 1 else content.length
  16 / (speed * intrinsicFactor len)

/-- `maxDuration = BASE_DURATION / (danmakuSettings.speed * 0.75)`, the
conservative bound used by the first filter pass. -/
def maxDuration (speed : ℚ) : ℚ := 16 / (speed * (3 / 4))

/-- The `.map` stage: `{ ...d, actualDuration }`. -/
def withDuration (speed : ℚ) (d : DanmakuItem) : ActiveDanmaku :=
  { toDanmakuItem := d, actualDuration := computeDuration speed d.content }

/-- First (conservative) filter pass of `activeOverlayDanmaku`:
`d.time >= smoothTime - maxDuration && d.time <= smoothTime + 0.5`. -/
def pass1 (smoothTime speed : ℚ) (d : DanmakuItem) : Bool :=
  decide (d.time ≥ smoothTime - maxDuration speed) && decide (d.time ≤ smoothTime + 1 / 2)

/-- Second (precise) filter pass of `activeOverlayDanmaku`:
`d.time >= smoothTime - d.actualDuration && d.time <= smoothTime + 0.5`. -/
def pass2 (smoothTime : ℚ) (d : ActiveDanmaku) : Bool :=
  decide (d.time ≥ smoothTime - d.actualDuration) && decide (d.time ≤ smoothTime + 1 / 2)

/-- The `activeOverlayDanmaku` memo from `Player.tsx`: returns `[]` when
danmaku display is off, otherwise filters conservatively, enriches each
candidate with its exact duration, and filters precisely. -/
def activeOverlayDanmaku (danmakuData : List DanmakuItem) (smoothTime : ℚ)
    (showDanmaku : Bool) (speed : ℚ) : List ActiveDanmaku :=
  if !showDanmaku then []
  else
    (((danmakuData.filter (pass1 smoothTime speed)).map (withDuration speed)).filter
      (pass2 smoothTime))

/-- Spec-side definition for the refinement claim: apply the exact pass-2
window directly to the whole list (no conservative pre-filter). -/
def exactWindowOverlay (danmakuData : List DanmakuItem) (smoothTime speed : ℚ) :
    List ActiveDanmaku :=
  (danmakuData.map (withDuration speed)).filter (pass2 smoothTime)

/-- Per-item progress from the overlay render loop:
`progress = (smoothTime - d.time) / duration`. -/
def overlayProgress (smoothTime : ℚ) (d : ActiveDanmaku) : ℚ :=
  (smoothTime - d.time) / d.actualDuration

/-- Horizontal position from the overlay render loop:
`startX = 100`, `endX = -100`, `currentX = startX - (progress * (startX - endX))`,
in viewport-width percent. -/
def overlayPositionX (smoothTime : ℚ) (d : ActiveDanmaku) : ℚ :=
  let startX : ℚ := 100
  let endX : ℚ := -100
  startX - overlayProgress smoothTime d * (startX - endX)

/-- A record stored by `saveHistory`: `{ time, segmentIndex, ts: Date.now() }`.
`Date.now()` yields integer milliseconds, modelled as a `Nat` passed in
explicitly. -/
structure HistoryRecord where
  time : ℚ
  segmentIndex : Nat
  ts : Nat
  deriving DecidableEq, Repr

/-- The history object, keyed by session id, in JavaScript-object insertion
order. -/
abbrev HistoryStore (α : Type) := List (α × HistoryRecord)

variable {α : Type} [DecidableEq α]

/-- `history[session.id] = { time, segmentIndex, ts }`: an existing key keeps
its position in the object with the new value; a new key is appended. -/
def upsert (k : α) (v : HistoryRecord) : HistoryStore α → HistoryStore α
  | [] => [(k, v)]
  | e :: rest => if e.1 = k then (k, v) :: rest else e :: upsert k v rest

/-- One step of the stable sort used by the eviction logic: the comparator is
`(a, b) => history[b].ts - history[a].ts`, i.e. descending by `ts` with ties
kept in object order (JavaScript `Array.prototype.sort` is stable). -/
def insertByTsDesc (e : α × HistoryRecord) : HistoryStore α → HistoryStore α
  | [] => [e]
  | y :: ys => if y.2.ts ≤ e.2.ts then e :: y :: ys else y :: insertByTsDesc e ys

/-- Stable sort of the history entries, descending by `ts`. -/
def sortByTsDesc : HistoryStore α → HistoryStore α
  | [] => []
  | e :: rest => insertByTsDesc e (sortByTsDesc rest)

/-- The `saveHistory` callback from `Player.tsx`: upsert the record, then if
more than 100 sessions are tracked, keep only the keys among the first 100 of
the `ts`-descending sort and delete the rest. -/
def saveHistory (k : α) (time : ℚ) (segmentIdx : Nat) (ts : Nat)
    (history : HistoryStore α) : HistoryStore α :=
  let h := upsert k ⟨time, segmentIdx, ts⟩ history
  if 100 < h.length then
    let keptKeys := ((sortByTsDesc h).take 100).map (fun x => x.1)
    h.filter (fun e => decide (e.1 ∈ keptKeys))
  else h

/-- Reading `history[sessionId]` back from the store. -/
def loadHistory (k : α) (h : HistoryStore α) : Option HistoryRecord :=
  (h.find? (fun e => decide (e.1 = k))).map (fun e => e.2)

/-- A sequence of `saveHistory` calls, each given as
`(sessionId, time, segmentIndex, ts)`. -/
def applySaves (ops : List (α × ℚ × Nat × Nat)) (h : HistoryStore α) : HistoryStore α :=
  ops.foldl (fun h op => saveHistory op.1 op.2.1 op.2.2.1 op.2.2.2 h) h

/-- Saving `n` distinct sessions `0, 1, ..., n-1` with strictly increasing
timestamps into an initially empty store. -/
def saveManySessions (n : Nat) : HistoryStore Nat :=
  applySaves ((List.range n).map (fun i => (i, (0 : ℚ), 0, i))) []

/-- A record as read back from the persisted JSON in the history-load effect:
`segmentIndex` may be absent (`undefined`). -/
structure StoredRecord where
  time : ℚ
  segmentIndex : Option Int
  deriving DecidableEq, Repr

/-- The history-load effect from `Player.tsx`: resume only when a record
exists, `record.time > 5`, `record.segmentIndex !== undefined`, and
`0 <= segmentIndex < session.segments.length`; otherwise leave the initial
state (`currentSegmentIndex = 0`, no initial seek). Returns the selected
segment index and the optional initial seek time. -/
def historyLoadEffect (record : Option StoredRecord) (segmentCount : Nat) :
    Nat × Option ℚ :=
  match record with
  | some r =>
    if 5 < r.time then
      match r.segmentIndex with
      | some j =>
        if 0 ≤ j ∧ j < (segmentCount : Int) then (j.toNat, some r.time) else (0, none)
      | none => (0, none)
    else (0, none)
  | none => (0, none)

/-- The `handleTimeUpdate` listener: set the authoritative time, and reset
the smoothed clock to it only when `|videoEl.currentTime - smoothTime| > 0.5`.
Returns `(currentTime, smoothTime)` after the update. -/
def handleTimeUpdate (authTime smoothTime : ℚ) : ℚ × ℚ :=
  (authTime, if 1 / 2 < |authTime - smoothTime| then authTime else smoothTime)

/-- The per-segment player state touched by the `loadDanmaku` effect. -/
structure PlayerState where
  danmakuData : List DanmakuItem
  errorMsg : Option String
  currentSegmentIndex : Nat
  isPlaying : Bool
  deriving DecidableEq, Repr

/-- The `loadDanmaku` effect from `Player.tsx`: the outcome of reading and
parsing the segment's comment file is `none` when no comment file is paired
with the segment, `Except.error` when reading/parsing throws, and `Except.ok`
on success. Only `danmakuData` is ever written. -/
def loadDanmakuEffect (st : PlayerState)
    (parseOutcome : Option (Except String (List DanmakuItem))) : PlayerState :=
  match parseOutcome with
  | some (Except.ok items) => { st with danmakuData := items }
  | some (Except.error _) => { st with danmakuData := [] }
  | none => { st with danmakuData := [] }

/-- One lowercase hexadecimal digit, as produced by `Number.toString(16)`. -/
def hexDigitChar (n : Nat) : Char :=
  if n < 10 then Char.ofNat (48 + n) else Char.ofNat (87 + n)

/-- Fuelled hexadecimal digit expansion (most significant digit first). -/
def hexDigitsAux : Nat → Nat → List Char
  | 0, _ => []
  | fuel + 1, n =>
    if n < 16 then [hexDigitChar n]
    else hexDigitsAux fuel (n / 16) ++ [hexDigitChar (n % 16)]

/-- `c.toString(16)` for a non-negative integer `c`: lowercase hex digits with
no superfluous leading zeros (`0` renders as `"0"`). -/
def natToHexChars (n : Nat) : List Char := hexDigitsAux (n + 1) n

/-- `String.prototype.padStart(targetLength, padChar)`. -/
def padStart (targetLength : Nat) (c : Char) (s : List Char) : List Char :=
  List.replicate (targetLength - s.length) c ++ s

/-- The `colorHex` computation from the overlay render loop:
`d.color === 16777215 ? '#ffffff' : '#' + d.color.toString(16).padStart(6, '0')`. -/
def colorHex (c : Nat) : List Char :=
  if c = 16777215 then "#ffffff".toList
  else '#' :: padStart 6 '0' (natToHexChars c)

/-- The lowercase hexadecimal alphabet. -/
def hexLowerChars : List Char := "0123456789abcdef".toList

/-- Numeric value of one lowercase hexadecimal digit character. -/
def hexCharVal (ch : Char) : Nat :=
  if 97 ≤ ch.toNat then ch.toNat - 87 else ch.toNat - 48

/-- Value denoted by a big-endian string of hexadecimal digit characters. -/
def interpHexChars (l : List Char) : Nat :=
  l.foldl (fun a ch => 16 * a + hexCharVal ch) 0

/-! ### Helper lemmas about the duration model -/

lemma intrinsicFactor_le_one (len : Nat) : intrinsicFactor len ≤ 1 := by
  unfold intrinsicFactor
  have h1 : (1 : ℚ) ≤ ((min (max len 1) 10 : Nat) : ℚ) := by
    have : 1 ≤ min (max len 1) 10 := le_min (le_max_right len 1) (by norm_num)
    exact_mod_cast this
  have h2 : ((min (max len 1) 10 : Nat) : ℚ) ≤ 10 := by
    have : min (max len 1) 10 ≤ 10 := min_le_right _ _
    exact_mod_cast this
  simp only []
  linarith

lemma le_intrinsicFactor (len : Nat) : 3 / 4 ≤ intrinsicFactor len := by
  unfold intrinsicFactor
  have h2 : ((min (max len 1) 10 : Nat) : ℚ) ≤ 10 := by
    have : min (max len 1) 10 ≤ 10 := min_le_right _ _
    exact_mod_cast this
  simp only []
  linarith

lemma computeDuration_pos {speed : ℚ} (hsp : 0 < speed) (content : String) :
    0 < computeDuration speed content := by
  unfold computeDuration
  have hf := le_intrinsicFactor (if content.length = 0 then 1 else content.length)
  have : 0 < speed * intrinsicFactor (if content.length = 0 then 1 else content.length) := by
    apply mul_pos hsp; linarith
  positivity

lemma computeDuration_le_max {speed : ℚ} (hsp : 0 < speed) (content : String) :
    computeDuration speed content ≤ maxDuration speed := by
  unfold computeDuration maxDuration
  set len := if content.length = 0 then 1 else content.length with hlen
  have hf₁ := le_intrinsicFactor len
  have hpos₁ : 0 < speed * (3 / 4 : ℚ) := by linarith
  have hpos₂ : 0 < speed * intrinsicFactor len := by nlinarith
  rw [div_le_div_iff₀ hpos₂ hpos₁]
  nlinarith

lemma computeDuration_eval (speed : ℚ) (content : String) :
    computeDuration speed content
      = 16 / (speed * intrinsicFactor (if content.length = 0 then 1 else content.length)) :=
  rfl

lemma intrinsicFactor_one : intrinsicFactor 1 = 1 := by
  unfold intrinsicFactor
  rw [show min (max 1 1) 10 = 1 from by decide]
  norm_num

lemma intrinsicFactor_ten : intrinsicFactor 10 = 3 / 4 := by
  unfold intrinsicFactor
  rw [show min (max 10 1) 10 = 10 from by decide]
  norm_num

lemma intrinsicFactor_twenty : intrinsicFactor 20 = 3 / 4 := by
  unfold intrinsicFactor
  rw [show min (max 20 1) 10 = 10 from by decide]
  norm_num

lemma computeDuration_one_char {content : String} (h : content.length = 1) (speed : ℚ) :
    computeDuration speed content = 16 / speed := by
  rw [computeDuration_eval, h]
  norm_num [intrinsicFactor_one]

lemma computeDuration_speed_one : computeDuration 1 "a" = 16 := by
  rw [computeDuration_one_char (by decide) 1]; norm_num

lemma computeDuration_speed_two : computeDuration 2 "a" = 8 := by
  rw [computeDuration_one_char (by decide) 2]; norm_num

lemma computeDuration_empty : computeDuration 1 "" = 16 := by
  rw [computeDuration_eval, show (if ("" : String).length = 0 then 1 else ("" : String).length) = 1
    from by decide]
  norm_num [intrinsicFactor_one]

lemma pass2_imp_pass1 {speed : ℚ} (hsp : 0 < speed) (ct : ℚ) (d : DanmakuItem) :
    pass2 ct (withDuration speed d) = true → pass1 ct speed d = true := by
  simp only [pass1, pass2, withDuration, Bool.and_eq_true, decide_eq_true_eq]
  rintro ⟨h1, h2⟩
  have hb := computeDuration_le_max hsp d.content
  exact ⟨by linarith, h2⟩

lemma filter_map_filter_of_imp {β γ : Type} (p : β → Bool) (q : γ → Bool) (f : β → γ)
    (hpq : ∀ x, q (f x) = true → p x = true) (l : List β) :
    ((l.filter p).map f).filter q = (l.map f).filter q := by
  induction l with
  | nil => rfl
  | cons x xs ih =>
    by_cases hp : p x = true
    · rw [List.filter_cons, if_pos hp, List.map_cons, List.filter_cons, ih,
        List.map_cons, List.filter_cons]
    · have hq : ¬ q (f x) = true := fun hqx => hp (hpq x hqx)
      rw [List.filter_cons, if_neg hp, List.map_cons, List.filter_cons, if_neg hq, ih]

lemma mem_overlay_elim {l : List DanmakuItem} {ct sp : ℚ} {sh : Bool} {d : ActiveDanmaku}
    (hd : d ∈ activeOverlayDanmaku l ct sh sp) :
    ∃ a ∈ l, withDuration sp a = d ∧ pass2 ct d = true := by
  unfold activeOverlayDanmaku at hd
  cases sh with
  | false => simp at hd
  | true =>
    rw [show (!true) = false from rfl] at hd
    rw [if_neg (by simp)] at hd
    rw [List.mem_filter] at hd
    obtain ⟨hmem, hp2⟩ := hd
    rw [List.mem_map] at hmem
    obtain ⟨a, ha, hfa⟩ := hmem
    rw [List.mem_filter] at ha
    exact ⟨a, ha.1, hfa, hp2⟩

lemma activeOverlayDanmaku_show_true (l : List DanmakuItem) (ct sp : ℚ) :
    activeOverlayDanmaku l ct true sp
      = ((l.filter (pass1 ct sp)).map (withDuration sp)).filter (pass2 ct) := by
  unfold activeOverlayDanmaku
  rw [show (!true) = false from rfl, if_neg (by simp)]

/-! ### Claims about the overlay scheduler -/

/-- C1: For every danmaku list, current time, and speed > 0, the two-pass
visibility filter of `activeOverlayDanmaku` returns exactly the same list as
applying the exact pass-2 window directly to the whole list; pass 1 is a
superset of pass 2, because every item's exact duration is at most the
conservative bound `16 / (speed * 0.75)`. -/
theorem overlay_two_pass_eq_exact_window (l : List DanmakuItem) (ct sp : ℚ)
    (hsp : 0 < sp) :
    activeOverlayDanmaku l ct true sp = exactWindowOverlay l ct sp
    ∧ (∀ d : DanmakuItem, pass2 ct (withDuration sp d) = true → pass1 ct sp d = true)
    ∧ ∀ d : DanmakuItem, computeDuration sp d.content ≤ maxDuration sp := by
  refine ⟨?_, fun d => pass2_imp_pass1 hsp ct d, fun d => computeDuration_le_max hsp d.content⟩
  rw [activeOverlayDanmaku_show_true]
  unfold exactWindowOverlay
  exact filter_map_filter_of_imp _ _ _ (fun x => pass2_imp_pass1 hsp ct x) l

/-- A concrete one-character danmaku item at t = 10, used to instantiate the
scheduler claims. -/
def demoItem : DanmakuItem :=
  ⟨10, 1, 25, 16777215, 0, 0, "", "", "x", none, none, none, none, 0, none, none⟩

lemma demoItem_duration : computeDuration 1 demoItem.content = 16 :=
  by rw [computeDuration_one_char (by decide) 1]; norm_num

lemma demoItem_overlay_at (ct : ℚ) (h₁ : demoItem.time ≥ ct - maxDuration 1)
    (h₂ : demoItem.time ≤ ct + 1 / 2) (h₃ : demoItem.time ≥ ct - 16) :
    activeOverlayDanmaku [demoItem] ct true 1 = [withDuration 1 demoItem] := by
  have hp1 : pass1 ct 1 demoItem = true := by
    simp only [pass1, Bool.and_eq_true, decide_eq_true_eq]
    exact ⟨h₁, h₂⟩
  have hp2 : pass2 ct (withDuration 1 demoItem) = true := by
    simp only [pass2, withDuration, Bool.and_eq_true, decide_eq_true_eq, demoItem_duration]
    exact ⟨h₃, h₂⟩
  rw [activeOverlayDanmaku_show_true]
  rw [show List.filter (pass1 ct 1) [demoItem] = [demoItem] from by
    rw [List.filter_cons, if_pos hp1]; rfl]
  rw [show List.map (withDuration 1) [demoItem] = [withDuration 1 demoItem] from rfl]
  rw [List.filter_cons, if_pos hp2]
  rfl

lemma demoItem_overlay_ten :
    activeOverlayDanmaku [demoItem] 10 true 1 = [withDuration 1 demoItem] := by
  refine demoItem_overlay_at 10 ?_ ?_ ?_ <;> norm_num [demoItem, maxDuration]

/-- C1 witness: concrete instance with a nonempty list at speed 1. -/
theorem overlay_two_pass_eq_exact_window_witness :
    (0 : ℚ) < 1
    ∧ activeOverlayDanmaku [demoItem] 10 true 1 = exactWindowOverlay [demoItem] 10 1 :=
  ⟨by norm_num, (overlay_two_pass_eq_exact_window [demoItem] 10 1 (by norm_num)).1⟩

/-- C2: Every item of the visible set has
`actualDuration = 16 / (speed * intrinsicFactor len)` where `len` is the
content length with empty content counting as length 1; moreover
`intrinsicFactor 1 = 1`, `intrinsicFactor 10 = 0.75`,
`intrinsicFactor 20 = 0.75`, and the duration is 16 at speed 1 and 8 at
speed 2 for a one-character item. -/
theorem duration_model_correct (l : List DanmakuItem) (ct sp : ℚ) (sh : Bool)
    (d : ActiveDanmaku) (hd : d ∈ activeOverlayDanmaku l ct sh sp) :
    d.actualDuration
        = 16 / (sp * intrinsicFactor (if d.content.length = 0 then 1 else d.content.length))
    ∧ intrinsicFactor 1 = 1
    ∧ intrinsicFactor 10 = 3 / 4
    ∧ intrinsicFactor 20 = 3 / 4
    ∧ computeDuration 1 "a" = 16
    ∧ computeDuration 2 "a" = 8
    ∧ computeDuration 1 "" = 16 := by
  obtain ⟨a, -, hfa, -⟩ := mem_overlay_elim hd
  refine ⟨?_, intrinsicFactor_one, intrinsicFactor_ten, intrinsicFactor_twenty,
    computeDuration_speed_one, computeDuration_speed_two, computeDuration_empty⟩
  subst hfa
  rfl

/-- C2 witness: concrete membership at speed 1 and time 10. -/
theorem duration_model_correct_witness :
    withDuration 1 demoItem ∈ activeOverlayDanmaku [demoItem] 10 true 1
    ∧ intrinsicFactor 1 = 1 :=
  have hmem : withDuration 1 demoItem ∈ activeOverlayDanmaku [demoItem] 10 true 1 := by
    rw [demoItem_overlay_ten]; exact List.mem_singleton.mpr rfl
  ⟨hmem, (duration_model_correct [demoItem] 10 1 true _ hmem).2.1⟩

/-- C3 counterexample: the claim that every item in the final visible set has
`progress ∈ [0, 1)` is false — with the 0.5 s lookahead an item whose `t`
still lies ahead of the current time is visible with negative progress. At
`currentTime = 9.5`, speed 1, the item at `t = 10` is in the visible set and
its progress is `-1/32 < 0`. -/
theorem overlay_progress_in_unit_cex :
    ∃ d ∈ activeOverlayDanmaku [demoItem] (19 / 2) true 1,
      overlayProgress (19 / 2) d < 0 := by
  refine ⟨withDuration 1 demoItem, ?_, ?_⟩
  · rw [demoItem_overlay_at (19 / 2) (by norm_num [demoItem, maxDuration])
      (by norm_num [demoItem]) (by norm_num [demoItem])]
    exact List.mem_singleton.mpr rfl
  · have ht : (withDuration 1 demoItem).time = 10 := rfl
    have hd : (withDuration 1 demoItem).actualDuration = 16 := demoItem_duration
    unfold overlayProgress
    rw [ht, hd]
    norm_num

/-- C3 (amended): for every item in the final visible set (speed > 0),
`progress = (currentTime - t) / D` lies in `[-0.5 / D, 1]` — items inside the
0.5 s lookahead enter with slightly negative progress, and the left window
boundary is included so progress can equal 1 — and the horizontal position is
the linear interpolation `100 - 200 * progress` (+100 vw at progress 0, -100
at progress 1); for an item with t = 10 and D = 16, progress is 0 at
currentTime = 10 and 1 at currentTime = 26. -/
theorem overlay_progress_bounds (l : List DanmakuItem) (ct sp : ℚ) (hsp : 0 < sp)
    (d : ActiveDanmaku) (hd : d ∈ activeOverlayDanmaku l ct true sp) :
    -(1 / 2) / d.actualDuration ≤ overlayProgress ct d
    ∧ overlayProgress ct d ≤ 1
    ∧ overlayPositionX ct d = 100 - 200 * overlayProgress ct d
    ∧ overlayProgress 10 (withDuration 1 demoItem) = 0
    ∧ overlayProgress 26 (withDuration 1 demoItem) = 1 := by
  obtain ⟨a, -, hfa, hp2⟩ := mem_overlay_elim hd
  have hD : 0 < d.actualDuration := by
    rw [← hfa]; exact computeDuration_pos hsp a.content
  simp only [pass2, Bool.and_eq_true, decide_eq_true_eq] at hp2
  obtain ⟨h1, h2⟩ := hp2
  have ht : (withDuration 1 demoItem).time = 10 := rfl
  have hd16 : (withDuration 1 demoItem).actualDuration = 16 := demoItem_duration
  refine ⟨?_, ?_, ?_, ?_, ?_⟩
  · unfold overlayProgress
    rw [div_le_div_iff_of_pos_right hD]
    linarith
  · unfold overlayProgress
    rw [div_le_one hD]
    linarith
  · unfold overlayPositionX
    ring
  · unfold overlayProgress
    rw [ht, hd16]
    norm_num
  · unfold overlayProgress
    rw [ht, hd16]
    norm_num

/-- C3 witness: the item at t = 10 viewed at currentTime = 10, speed 1. -/
theorem overlay_progress_bounds_witness :
    (0 : ℚ) < 1
    ∧ withDuration 1 demoItem ∈ activeOverlayDanmaku [demoItem] 10 true 1
    ∧ (-(1 / 2) / (withDuration 1 demoItem).actualDuration
          ≤ overlayProgress 10 (withDuration 1 demoItem)
        ∧ overlayProgress 10 (withDuration 1 demoItem) ≤ 1
        ∧ overlayPositionX 10 (withDuration 1 demoItem)
            = 100 - 200 * overlayProgress 10 (withDuration 1 demoItem)
        ∧ overlayProgress 10 (withDuration 1 demoItem) = 0
        ∧ overlayProgress 26 (withDuration 1 demoItem) = 1) :=
  have hmem : withDuration 1 demoItem ∈ activeOverlayDanmaku [demoItem] 10 true 1 := by
    rw [demoItem_overlay_ten]; exact List.mem_singleton.mpr rfl
  ⟨by norm_num, hmem, overlay_progress_bounds [demoItem] 10 1 (by norm_num) _ hmem⟩

/-! ### Claims about clock reconciliation, resume, and error isolation -/

/-- C6: on each authoritative playback-position update the smoothed clock is
reset to the authoritative time exactly when the two clocks diverge by more
than 0.5 simulated seconds, and is left unchanged when the divergence is at
most 0.5 seconds (the authoritative clock itself is always updated). -/
theorem handle_time_update_resync (auth smooth : ℚ) (hgt : 1 / 2 < |auth - smooth|)
    (auth' smooth' : ℚ) (hle : |auth' - smooth'| ≤ 1 / 2) :
    handleTimeUpdate auth smooth = (auth, auth)
    ∧ handleTimeUpdate auth' smooth' = (auth', smooth') := by
  constructor
  · unfold handleTimeUpdate
    rw [if_pos hgt]
  · unfold handleTimeUpdate
    rw [if_neg (not_lt.mpr hle)]

/-- C6 witness: divergence 1 > 0.5 resets; divergence 0 ≤ 0.5 leaves the
smoothed clock alone. -/
theorem handle_time_update_resync_witness :
    (1 / 2 : ℚ) < |(1 : ℚ) - 0| ∧ |(3 : ℚ) - 3| ≤ 1 / 2
    ∧ handleTimeUpdate 1 0 = (1, 1) ∧ handleTimeUpdate 3 3 = (3, 3) :=
  ⟨by norm_num, by norm_num,
    (handle_time_update_resync 1 0 (by norm_num) 3 3 (by norm_num)).1,
    (handle_time_update_resync 1 0 (by norm_num) 3 3 (by norm_num)).2⟩

/-- C7: a stored resume position is applied only when its saved time is
strictly greater than 5 seconds; every record with time ≤ 5 is skipped
entirely and playback starts from the beginning (segment 0, no seek). -/
theorem resume_only_above_five (r : StoredRecord) (n : Nat) (hle : r.time ≤ 5)
    (r' : StoredRecord) (n' i : Nat) (t : ℚ)
    (happ : historyLoadEffect (some r') n' = (i, some t)) :
    historyLoadEffect (some r) n = (0, none) ∧ 5 < r'.time ∧ t = r'.time := by
  refine ⟨?_, ?_⟩
  · obtain ⟨rt, rseg⟩ := r
    simp only [historyLoadEffect] at hle ⊢
    rw [if_neg (not_lt.mpr hle)]
  · obtain ⟨rt, rseg⟩ := r'
    simp only [historyLoadEffect] at happ ⊢
    by_cases h5 : 5 < rt
    · rw [if_pos h5] at happ
      cases rseg with
      | none => simp at happ
      | some j =>
        simp only [] at happ
        by_cases hin : 0 ≤ j ∧ j < (n' : Int)
        · rw [if_pos hin] at happ
          have h2 := congrArg Prod.snd happ
          simp only [Option.some.injEq] at h2
          exact ⟨h5, h2.symm⟩
        · rw [if_neg hin] at happ
          simp at happ
    · rw [if_neg h5] at happ
      simp at happ

/-- C7 witness: a record at 3 s is skipped; a record at 100 s in range is
applied with its own time. -/
theorem resume_only_above_five_witness :
    (({ time := 3, segmentIndex := some 0 } : StoredRecord).time ≤ 5)
    ∧ historyLoadEffect (some { time := 100, segmentIndex := some 0 }) 1 = (0, some 100)
    ∧ (historyLoadEffect (some { time := 3, segmentIndex := some 0 }) 1 = (0, none)
        ∧ 5 < ({ time := 100, segmentIndex := some 0 } : StoredRecord).time
        ∧ (100 : ℚ) = ({ time := 100, segmentIndex := some 0 } : StoredRecord).time) :=
  ⟨by norm_num, by norm_num [historyLoadEffect],
    resume_only_above_five { time := 3, segmentIndex := some 0 } 1 (by norm_num)
      { time := 100, segmentIndex := some 0 } 1 0 100
      (by norm_num [historyLoadEffect])⟩

/-- C9: if the segment has no paired comment file, or reading/parsing it
fails, the segment's comment set becomes empty while every other component of
the player state (error message, current segment, playing flag) is left
untouched — the failure is isolated. -/
theorem danmaku_load_failure_isolated (st : PlayerState)
    (outcome : Option (Except String (List DanmakuItem)))
    (hfail : outcome = none ∨ ∃ msg, outcome = some (Except.error msg)) :
    (loadDanmakuEffect st outcome).danmakuData = []
    ∧ (loadDanmakuEffect st outcome).errorMsg = st.errorMsg
    ∧ (loadDanmakuEffect st outcome).currentSegmentIndex = st.currentSegmentIndex
    ∧ (loadDanmakuEffect st outcome).isPlaying = st.isPlaying := by
  rcases hfail with h | ⟨msg, h⟩ <;> subst h <;>
    exact ⟨rfl, rfl, rfl, rfl⟩

/-- C9 witness: a failed parse on a concrete player state. -/
theorem danmaku_load_failure_isolated_witness :
    ((some (Except.error "boom") : Option (Except String (List DanmakuItem))) = none
        ∨ ∃ msg, (some (Except.error "boom") : Option (Except String (List DanmakuItem)))
            = some (Except.error msg))
    ∧ (loadDanmakuEffect ⟨[demoItem], none, 2, true⟩ (some (Except.error "boom"))).danmakuData
        = []
    ∧ (loadDanmakuEffect ⟨[demoItem], none, 2, true⟩
          (some (Except.error "boom"))).currentSegmentIndex = 2 :=
  have h := danmaku_load_failure_isolated ⟨[demoItem], none, 2, true⟩
    (some (Except.error "boom")) (Or.inr ⟨"boom", rfl⟩)
  ⟨Or.inr ⟨"boom", rfl⟩, h.1, h.2.2.1⟩

/-- C10: a stored record whose `segmentIndex` is undefined, negative, or at
least the session's segment count is ignored entirely — playback starts at
segment 0 with no initial seek — and in every case the segment index chosen
by the resume path is 0 or strictly below the segment count, so
`session.segments` is never indexed out of range. -/
theorem resume_segment_index_safe (r : StoredRecord) (n : Nat)
    (hbad : r.segmentIndex = none
      ∨ ∃ j, r.segmentIndex = some j ∧ (j < 0 ∨ (n : Int) ≤ j))
    (ro : Option StoredRecord) (m : Nat) :
    historyLoadEffect (some r) n = (0, none)
    ∧ ((historyLoadEffect ro m).1 = 0 ∨ (historyLoadEffect ro m).1 < m) := by
  constructor
  · obtain ⟨rt, rseg⟩ := r
    simp only [historyLoadEffect] at hbad ⊢
    by_cases h5 : 5 < rt
    · rw [if_pos h5]
      rcases hbad with h | ⟨j, hj, hout⟩
      · rw [show rseg = none from h]
      · rw [show rseg = some j from hj]
        simp only []
        rw [if_neg]
        rintro ⟨hge, hlt⟩
        rcases hout with h' | h' <;> omega
    · rw [if_neg h5]
  · cases ro with
    | none => exact Or.inl rfl
    | some r' =>
      obtain ⟨rt, rseg⟩ := r'
      simp only [historyLoadEffect]
      by_cases h5 : 5 < rt
      · rw [if_pos h5]
        cases rseg with
        | none => exact Or.inl rfl
        | some j =>
          simp only []
          by_cases hin : 0 ≤ j ∧ j < (m : Int)
          · rw [if_pos hin]
            exact Or.inr (by simpa using (Int.toNat_lt hin.1).mpr hin.2)
          · rw [if_neg hin]
            exact Or.inl rfl
      · rw [if_neg h5]
        exact Or.inl rfl

/-- C10 witness: a record pointing past the end of a 2-segment session is
ignored. -/
theorem resume_segment_index_safe_witness :
    (({ time := 50, segmentIndex := some 7 } : StoredRecord).segmentIndex = none
        ∨ ∃ j, ({ time := 50, segmentIndex := some 7 } : StoredRecord).segmentIndex = some j
            ∧ (j < 0 ∨ ((2 : Nat) : Int) ≤ j))
    ∧ historyLoadEffect (some { time := 50, segmentIndex := some 7 }) 2 = (0, none)
    ∧ ((historyLoadEffect (some { time := 50, segmentIndex := some 0 }) 2).1 = 0
        ∨ (historyLoadEffect (some { time := 50, segmentIndex := some 0 }) 2).1 < 2) :=
  have h := resume_segment_index_safe { time := 50, segmentIndex := some 7 } 2
    (Or.inr ⟨7, rfl, Or.inr (by norm_num)⟩)
    (some { time := 50, segmentIndex := some 0 }) 2
  ⟨Or.inr ⟨7, rfl, Or.inr (by norm_num)⟩, h.1, h.2⟩

/-! ### Helper lemmas about the history store -/

lemma mem_upsert_self (k : α) (v : HistoryRecord) (h : HistoryStore α) :
    (k, v) ∈ upsert k v h := by
  induction h with
  | nil => exact List.mem_singleton.mpr rfl
  | cons e rest ih =>
    unfold upsert
    by_cases hek : e.1 = k
    · rw [if_pos hek]; exact List.mem_cons_self _ _
    · rw [if_neg hek]; exact List.mem_cons_of_mem _ ih

lemma mem_upsert_elim {k : α} {v : HistoryRecord} {h : HistoryStore α}
    {e : α × HistoryRecord} (he : e ∈ upsert k v h) : e = (k, v) ∨ e ∈ h := by
  induction h with
  | nil => simpa [upsert] using he
  | cons y rest ih =>
    unfold upsert at he
    by_cases hek : y.1 = k
    · rw [if_pos hek] at he
      rcases List.mem_cons.mp he with h' | h'
      · exact Or.inl h'
      · exact Or.inr (List.mem_cons_of_mem _ h')
    · rw [if_neg hek] at he
      rcases List.mem_cons.mp he with h' | h'
      · exact Or.inr (h' ▸ List.mem_cons_self _ _)
      · rcases ih h' with h'' | h''
        · exact Or.inl h''
        · exact Or.inr (List.mem_cons_of_mem _ h'')

lemma keys_upsert_elim {k : α} {v : HistoryRecord} {h : HistoryStore α} {x : α}
    (hx : x ∈ (upsert k v h).map (fun e => e.1)) :
    x = k ∨ x ∈ h.map (fun e => e.1) := by
  rw [List.mem_map] at hx
  obtain ⟨e, he, hex⟩ := hx
  rcases mem_upsert_elim he with h' | h'
  · left; rw [← hex, h']
  · right; rw [List.mem_map]; exact ⟨e, h', hex⟩

lemma upsert_keys_nodup {k : α} {v : HistoryRecord} {h : HistoryStore α}
    (hnd : (h.map (fun e => e.1)).Nodup) :
    ((upsert k v h).map (fun e => e.1)).Nodup := by
  induction h with
  | nil => simp [upsert]
  | cons y rest ih =>
    rw [List.map_cons, List.nodup_cons] at hnd
    unfold upsert
    by_cases hek : y.1 = k
    · rw [if_pos hek, List.map_cons, List.nodup_cons]
      exact ⟨hek ▸ hnd.1, hnd.2⟩
    · rw [if_neg hek, List.map_cons, List.nodup_cons]
      refine ⟨fun hmem => ?_, ih hnd.2⟩
      rcases keys_upsert_elim hmem with h' | h'
      · exact hek h'
      · exact hnd.1 h'

lemma find?_upsert (k : α) (v : HistoryRecord) (h : HistoryStore α) :
    (upsert k v h).find? (fun e => decide (e.1 = k)) = some (k, v) := by
  induction h with
  | nil => simp [upsert, List.find?]
  | cons y rest ih =>
    unfold upsert
    by_cases hek : y.1 = k
    · rw [if_pos hek]
      simp [List.find?]
    · rw [if_neg hek]
      rw [List.find?_cons_of_neg _ (by simpa using hek)]
      exact ih

lemma insertByTsDesc_perm (e : α × HistoryRecord) (l : HistoryStore α) :
    List.Perm (insertByTsDesc e l) (e :: l) := by
  induction l with
  | nil => exact List.Perm.refl _
  | cons y ys ih =>
    unfold insertByTsDesc
    by_cases hc : y.2.ts ≤ e.2.ts
    · rw [if_pos hc]
    · rw [if_neg hc]
      exact (ih.cons y).trans (List.Perm.swap e y ys)

lemma sortByTsDesc_perm (l : HistoryStore α) : List.Perm (sortByTsDesc l) l := by
  induction l with
  | nil => exact List.Perm.refl _
  | cons e rest ih =>
    exact (insertByTsDesc_perm e (sortByTsDesc rest)).trans (ih.cons e)

lemma insertByTsDesc_sorted {e : α × HistoryRecord} {l : HistoryStore α}
    (hs : l.Pairwise (fun a b => b.2.ts ≤ a.2.ts)) :
    (insertByTsDesc e l).Pairwise (fun a b => b.2.ts ≤ a.2.ts) := by
  induction l with
  | nil => simp [insertByTsDesc]
  | cons y ys ih =>
    rw [List.pairwise_cons] at hs
    unfold insertByTsDesc
    by_cases hc : y.2.ts ≤ e.2.ts
    · rw [if_pos hc, List.pairwise_cons]
      refine ⟨?_, List.pairwise_cons.mpr hs⟩
      intro z hz
      rcases List.mem_cons.mp hz with h' | h'
      · rw [h']; exact hc
      · exact le_trans (hs.1 z h') hc
    · rw [if_neg hc, List.pairwise_cons]
      refine ⟨?_, ih hs.2⟩
      intro z hz
      rcases (insertByTsDesc_perm e ys).mem_iff.mp hz with h'
      rcases List.mem_cons.mp h' with h'' | h''
      · rw [h'']; omega
      · exact hs.1 z h''

lemma sortByTsDesc_sorted (l : HistoryStore α) :
    (sortByTsDesc l).Pairwise (fun a b => b.2.ts ≤ a.2.ts) := by
  induction l with
  | nil => simp [sortByTsDesc]
  | cons e rest ih => exact insertByTsDesc_sorted ih

lemma sorted_take_drop_ts {l : HistoryStore α}
    (hs : l.Pairwise (fun a b => b.2.ts ≤ a.2.ts)) (n : Nat)
    {x y : α × HistoryRecord} (hx : x ∈ l.take n) (hy : y ∈ l.drop n) :
    y.2.ts ≤ x.2.ts := by
  have := (List.pairwise_append.mp (by rw [List.take_append_drop n l]; exact hs)).2.2
  exact this x hx y hy

lemma eq_of_mem_of_fst_eq {h : HistoryStore α}
    (hnd : (h.map (fun e => e.1)).Nodup) {a b : α × HistoryRecord}
    (ha : a ∈ h) (hb : b ∈ h) (hab : a.1 = b.1) : a = b := by
  induction h with
  | nil => simp at ha
  | cons y rest ih =>
    rw [List.map_cons, List.nodup_cons] at hnd
    rcases List.mem_cons.mp ha with ha' | ha' <;> rcases List.mem_cons.mp hb with hb' | hb'
    · rw [ha', hb']
    · exfalso
      apply hnd.1
      rw [List.mem_map]
      exact ⟨b, hb', by rw [← hab, ha']⟩
    · exfalso
      apply hnd.1
      rw [List.mem_map]
      exact ⟨a, ha', by rw [hab, hb']⟩
    · exact ih hnd.2 ha' hb'

lemma filter_key_mem_length_le {h : HistoryStore α} (S : List α)
    (hnd : (h.map (fun e => e.1)).Nodup) :
    (h.filter (fun e => decide (e.1 ∈ S))).length ≤ S.length := by
  have hsub : ((h.filter (fun e => decide (e.1 ∈ S))).map (fun e => e.1)).Sublist
      (h.map (fun e => e.1)) := (List.filter_sublist h).map _
  have hnd' : ((h.filter (fun e => decide (e.1 ∈ S))).map (fun e => e.1)).Nodup :=
    hnd.sublist hsub
  have hss : (h.filter (fun e => decide (e.1 ∈ S))).map (fun e => e.1) ⊆ S := by
    intro x hx
    rw [List.mem_map] at hx
    obtain ⟨e, he, hex⟩ := hx
    have h2 := (List.mem_filter.mp he).2
    rw [decide_eq_true_eq] at h2
    rw [← hex]
    exact h2
  calc (h.filter (fun e => decide (e.1 ∈ S))).length
      = ((h.filter (fun e => decide (e.1 ∈ S))).map (fun e => e.1)).length :=
        (List.length_map _ _).symm
    _ ≤ S.length := (hnd'.subperm hss).length_le

lemma saveHistory_length_le {h : HistoryStore α} (k : α) (t : ℚ) (seg ts : Nat)
    (hnd : (h.map (fun e => e.1)).Nodup) :
    (saveHistory k t seg ts h).length ≤ 100 := by
  simp only [saveHistory]
  by_cases hlen : 100 < (upsert k ⟨t, seg, ts⟩ h).length
  · rw [if_pos hlen]
    have hnd' := upsert_keys_nodup (k := k) (v := ⟨t, seg, ts⟩) hnd
    have h1 := filter_key_mem_length_le
      (h := upsert k ⟨t, seg, ts⟩ h)
      (((sortByTsDesc (upsert k ⟨t, seg, ts⟩ h)).take 100).map (fun x => x.1)) hnd'
    have h2 : (((sortByTsDesc (upsert k ⟨t, seg, ts⟩ h)).take 100).map
        (fun x => x.1)).length ≤ 100 := by
      rw [List.length_map, List.length_take]
      exact min_le_left _ _
    omega
  · rw [if_neg hlen]
    omega

lemma saveHistory_keys_nodup {h : HistoryStore α} (k : α) (t : ℚ) (seg ts : Nat)
    (hnd : (h.map (fun e => e.1)).Nodup) :
    ((saveHistory k t seg ts h).map (fun e => e.1)).Nodup := by
  simp only [saveHistory]
  by_cases hlen : 100 < (upsert k ⟨t, seg, ts⟩ h).length
  · rw [if_pos hlen]
    exact (upsert_keys_nodup hnd).sublist ((List.filter_sublist _).map _)
  · rw [if_neg hlen]
    exact upsert_keys_nodup hnd

lemma applySaves_bound (ops : List (α × ℚ × Nat × Nat)) :
    ∀ h : HistoryStore α, (h.map (fun e => e.1)).Nodup → h.length ≤ 100 →
      ((applySaves ops h).map (fun e => e.1)).Nodup ∧ (applySaves ops h).length ≤ 100 := by
  induction ops with
  | nil => exact fun h hnd hlen => ⟨hnd, hlen⟩
  | cons op rest ih =>
    intro h hnd hlen
    exact ih (saveHistory op.1 op.2.1 op.2.2.1 op.2.2.2 h)
      (saveHistory_keys_nodup _ _ _ _ hnd) (saveHistory_length_le _ _ _ _ hnd)

lemma save_evicted_ts_le {h : HistoryStore α} {k : α} {t : ℚ} {seg ts : Nat}
    {e e' : α × HistoryRecord}
    (hnd : (h.map (fun x => x.1)).Nodup)
    (he : e ∈ upsert k ⟨t, seg, ts⟩ h)
    (hre : e ∉ saveHistory k t seg ts h)
    (he' : e' ∈ saveHistory k t seg ts h) :
    e.2.ts ≤ e'.2.ts := by
  simp only [saveHistory] at hre he'
  by_cases hlen : 100 < (upsert k ⟨t, seg, ts⟩ h).length
  · rw [if_pos hlen] at hre he'
    have hnd_u := upsert_keys_nodup (k := k) (v := ⟨t, seg, ts⟩) hnd
    have hperm := sortByTsDesc_perm (upsert k ⟨t, seg, ts⟩ h)
    have hek : e.1 ∉ ((sortByTsDesc (upsert k ⟨t, seg, ts⟩ h)).take 100).map (fun x => x.1) :=
      fun hk => hre (List.mem_filter.mpr ⟨he, by simpa using hk⟩)
    have hes : e ∈ sortByTsDesc (upsert k ⟨t, seg, ts⟩ h) := hperm.mem_iff.mpr he
    have hsplit : e ∈ (sortByTsDesc (upsert k ⟨t, seg, ts⟩ h)).take 100
        ++ (sortByTsDesc (upsert k ⟨t, seg, ts⟩ h)).drop 100 := by
      rw [List.take_append_drop]
      exact hes
    rcases List.mem_append.mp hsplit with hta | hdr
    · exact absurd (List.mem_map.mpr ⟨e, hta, rfl⟩) hek
    have he'u : e' ∈ upsert k ⟨t, seg, ts⟩ h := (List.mem_filter.mp he').1
    have he'k : e'.1 ∈ ((sortByTsDesc (upsert k ⟨t, seg, ts⟩ h)).take 100).map (fun x => x.1) :=
      by simpa using (List.mem_filter.mp he').2
    obtain ⟨a, hat, hae⟩ := List.mem_map.mp he'k
    have hau : a ∈ upsert k ⟨t, seg, ts⟩ h := hperm.mem_iff.mp (List.mem_of_mem_take hat)
    have haq : a = e' := eq_of_mem_of_fst_eq hnd_u hau he'u hae
    rw [← haq]
    exact sorted_take_drop_ts (sortByTsDesc_sorted _) 100 hat hdr
  · rw [if_neg hlen] at hre
    exact absurd he hre

lemma find?_key_filter {p : α × HistoryRecord → Bool} {k : α}
    (h : HistoryStore α) (hp : ∀ e : α × HistoryRecord, e.1 = k → p e = true) :
    (h.filter p).find? (fun e => decide (e.1 = k)) = h.find? (fun e => decide (e.1 = k)) := by
  induction h with
  | nil => rfl
  | cons y rest ih =>
    by_cases hyk : y.1 = k
    · rw [List.filter_cons, if_pos (hp y hyk),
        List.find?_cons_of_pos _ (by simpa using hyk),
        List.find?_cons_of_pos _ (by simpa using hyk)]
    · cases hpy : p y with
      | false =>
        rw [List.filter_cons, hpy]
        simp only [Bool.false_eq_true, if_false]
        rw [ih, List.find?_cons_of_neg _ (by simpa using hyk)]
      | true =>
        rw [List.filter_cons, hpy]
        simp only [if_true]
        rw [List.find?_cons_of_neg _ (by simpa using hyk),
          List.find?_cons_of_neg _ (by simpa using hyk), ih]

/-- The entry written for session `j` by `saveManySessions`. -/
def sessionEntry (j : Nat) : Nat × HistoryRecord := (j, ⟨0, 0, j⟩)

lemma upsert_of_not_mem {k : α} {v : HistoryRecord} {h : HistoryStore α}
    (hk : k ∉ h.map (fun e => e.1)) : upsert k v h = h ++ [(k, v)] := by
  induction h with
  | nil => rfl
  | cons e rest ih =>
    rw [List.map_cons, List.mem_cons] at hk
    push_neg at hk
    unfold upsert
    rw [if_neg (fun hek => hk.1 hek.symm), ih hk.2]
    rfl

lemma insertByTsDesc_of_lt {e : α × HistoryRecord} {l : HistoryStore α}
    (hl : ∀ y ∈ l, e.2.ts < y.2.ts) : insertByTsDesc e l = l ++ [e] := by
  induction l with
  | nil => rfl
  | cons y ys ih =>
    unfold insertByTsDesc
    have hy := hl y (List.mem_cons_self _ _)
    rw [if_neg (by omega), ih (fun z hz => hl z (List.mem_cons_of_mem _ hz))]
    rfl

lemma sortByTsDesc_of_ascending {l : HistoryStore α}
    (hl : l.Pairwise (fun x y => x.2.ts < y.2.ts)) : sortByTsDesc l = l.reverse := by
  induction l with
  | nil => rfl
  | cons e rest ih =>
    rw [List.pairwise_cons] at hl
    show insertByTsDesc e (sortByTsDesc rest) = (e :: rest).reverse
    rw [ih hl.2, insertByTsDesc_of_lt (fun y hy => hl.1 y (List.mem_reverse.mp hy)),
      List.reverse_cons]

lemma sessionEntries_pairwise (a b : Nat) :
    ((List.range' a b).map sessionEntry).Pairwise (fun x y => x.2.ts < y.2.ts) :=
  (List.pairwise_lt_range' a b).map sessionEntry (fun _ _ hab => hab)

lemma keys_sessionEntries (a b : Nat) :
    (((List.range' a b).map sessionEntry).map (fun e => e.1)) = List.range' a b := by
  rw [List.map_map]
  exact List.map_id _

lemma saveHistory_step_small (i : Nat) (hi : i < 100) :
    saveHistory i 0 0 i ((List.range' 0 i).map sessionEntry)
      = (List.range' 0 (i + 1)).map sessionEntry := by
  have hk : (i : Nat) ∉ ((List.range' 0 i).map sessionEntry).map (fun e => e.1) := by
    rw [keys_sessionEntries]
    intro hmem
    have := List.mem_range'_1.mp hmem
    omega
  simp only [saveHistory]
  rw [upsert_of_not_mem hk]
  have hlen : (((List.range' 0 i).map sessionEntry) ++ [((i : Nat), (⟨0, 0, i⟩ : HistoryRecord))]).length
      = i + 1 := by
    simp [List.length_append, List.length_map, List.length_range']
  rw [hlen, if_neg (by omega)]
  rw [List.range'_concat, List.map_append]
  congr 1
  rw [show 0 + 1 * i = i from by omega]
  rfl

lemma saveHistory_step_big (i : Nat) (hi : 100 ≤ i) :
    saveHistory i 0 0 i ((List.range' (i - 100) 100).map sessionEntry)
      = (List.range' (i - 99) 100).map sessionEntry := by
  have hk : (i : Nat) ∉ ((List.range' (i - 100) 100).map sessionEntry).map (fun e => e.1) := by
    rw [keys_sessionEntries]
    intro hmem
    have := List.mem_range'_1.mp hmem
    omega
  have hr : List.range' (i - 100) 101 = List.range' (i - 100) 100 ++ [i - 100 + 1 * 100] :=
    List.range'_concat _ _
  rw [show i - 100 + 1 * 100 = i from by omega] at hr
  have hcat : (List.range' (i - 100) 100).map sessionEntry
        ++ [((i : Nat), (⟨0, 0, i⟩ : HistoryRecord))]
      = (List.range' (i - 100) 101).map sessionEntry := by
    rw [hr, List.map_append]
    rfl
  have hsplit : (List.range' (i - 100) 101).map sessionEntry
      = sessionEntry (i - 100) :: (List.range' (i - 99) 100).map sessionEntry := by
    rw [show (101 : Nat) = 100 + 1 from rfl, List.range'_succ, List.map_cons,
      show i - 100 + 1 = i - 99 from by omega]
  simp only [saveHistory]
  rw [upsert_of_not_mem hk, hcat]
  have hlen : ((List.range' (i - 100) 101).map sessionEntry).length = 101 := by
    simp [List.length_map, List.length_range']
  rw [hlen, if_pos (by omega)]
  rw [sortByTsDesc_of_ascending (sessionEntries_pairwise _ _)]
  rw [hsplit, List.reverse_cons]
  have htake : (((List.range' (i - 99) 100).map sessionEntry).reverse
        ++ [sessionEntry (i - 100)]).take 100
      = ((List.range' (i - 99) 100).map sessionEntry).reverse :=
    List.take_left' (by simp [List.length_reverse, List.length_map, List.length_range'])
  rw [htake]
  have hkeys : (((List.range' (i - 99) 100).map sessionEntry).reverse).map (fun x => x.1)
      = (List.range' (i - 99) 100).reverse := by
    rw [List.map_reverse, keys_sessionEntries]
  rw [hkeys]
  rw [List.filter_cons]
  rw [if_neg (by
    simp only [decide_eq_true_eq, List.mem_reverse]
    intro hmem
    have h1 : sessionEntry (i - 100) = ((i - 100 : Nat), (⟨0, 0, i - 100⟩ : HistoryRecord)) := rfl
    rw [h1] at hmem
    have := List.mem_range'_1.mp hmem
    omega)]
  rw [List.filter_eq_self.mpr]
  intro e he
  rw [List.mem_map] at he
  obtain ⟨j, hj, hje⟩ := he
  rw [decide_eq_true_eq, List.mem_reverse, ← hje]
  exact hj

lemma saveManySessions_eq (i : Nat) :
    saveManySessions i = (List.range' (i - min i 100) (min i 100)).map sessionEntry := by
  induction i with
  | zero => rfl
  | succ i ih =>
    have hstep : saveManySessions (i + 1) = saveHistory i 0 0 i (saveManySessions i) := by
      unfold saveManySessions applySaves
      rw [List.range_succ, List.map_append, List.foldl_append]
      rfl
    rw [hstep, ih]
    by_cases hi : i < 100
    · rw [show i - min i 100 = 0 from by omega, show min i 100 = i from by omega,
        saveHistory_step_small i hi,
        show min (i + 1) 100 = i + 1 from by omega,
        show (i + 1) - (i + 1) = 0 from by omega]
    · push_neg at hi
      rw [show i - min i 100 = i - 100 from by omega, show min i 100 = 100 from by omega,
        saveHistory_step_big i hi,
        show min (i + 1) 100 = 100 from by omega,
        show (i + 1) - 100 = i - 99 from by omega]

lemma saveManySessions_150_keys :
    (saveManySessions 150).map (fun x => x.1) = List.range' 50 100 := by
  rw [saveManySessions_eq 150,
    show (150 : Nat) - min 150 100 = 50 from by norm_num,
    show min (150 : Nat) 100 = 100 from by norm_num]
  exact keys_sessionEntries 50 100

/-- A store with exactly 100 distinct sessions whose timestamps all differ. -/
def capStore : HistoryStore Nat := (List.range 100).map (fun i => (i, ⟨0, 0, i⟩))

/-- A store with exactly 100 distinct sessions all saved at the same
millisecond (`ts = 5`). -/
def tieStore : HistoryStore Nat := (List.range 100).map (fun i => (i, ⟨0, 0, 5⟩))

set_option maxRecDepth 1000000
set_option maxHeartbeats 8000000

/-- C4: (i) after any sequence of `save` operations starting from the empty
store the history holds at most 100 records; (ii) when a save evicts an
entry, every evicted entry has a `savedAt` timestamp at most that of every
retained entry — the removed entries are exactly the least recently saved;
(iii) saving 150 distinct sessions with increasing timestamps retains exactly
the 100 most recently saved (keys 50..149). -/
theorem history_cap_and_lru_eviction {β : Type} [DecidableEq β]
    (ops : List (β × ℚ × Nat × Nat))
    (h : HistoryStore β) (k : β) (t : ℚ) (seg ts : Nat) (e e' : β × HistoryRecord)
    (hnd : (h.map (fun x => x.1)).Nodup)
    (he : e ∈ upsert k ⟨t, seg, ts⟩ h)
    (hre : e ∉ saveHistory k t seg ts h)
    (he' : e' ∈ saveHistory k t seg ts h) :
    (applySaves ops ([] : HistoryStore β)).length ≤ 100
    ∧ e.2.ts ≤ e'.2.ts
    ∧ (saveManySessions 150).map (fun x => x.1) = List.range' 50 100 :=
  ⟨(applySaves_bound ops [] (by simp) (by simp)).2,
    save_evicted_ts_le hnd he hre he',
    saveManySessions_150_keys⟩

/-- C4 witness: saving session 100 into a full store of sessions 0..99 with
older timestamps evicts exactly the oldest entry (key 0). -/
theorem history_cap_and_lru_eviction_witness :
    (capStore.map (fun x => x.1)).Nodup
    ∧ (0, (⟨0, 0, 0⟩ : HistoryRecord)) ∈ upsert 100 ⟨0, 0, 100⟩ capStore
    ∧ (0, (⟨0, 0, 0⟩ : HistoryRecord)) ∉ saveHistory 100 0 0 100 capStore
    ∧ (100, (⟨0, 0, 100⟩ : HistoryRecord)) ∈ saveHistory 100 0 0 100 capStore
    ∧ ((applySaves ([] : List (Nat × ℚ × Nat × Nat)) ([] : HistoryStore Nat)).length ≤ 100
        ∧ (0, (⟨0, 0, 0⟩ : HistoryRecord)).2.ts ≤ (100, (⟨0, 0, 100⟩ : HistoryRecord)).2.ts
        ∧ (saveManySessions 150).map (fun x => x.1) = List.range' 50 100) :=
  ⟨by decide, by decide, by decide, by decide,
    history_cap_and_lru_eviction [] capStore 100 0 0 100
      (0, ⟨0, 0, 0⟩) (100, ⟨0, 0, 100⟩) (by decide) (by decide) (by decide) (by decide)⟩

/-- C5 counterexample: the claim fails for some reachable prior store
contents. With 100 sessions already saved in the same millisecond (`ts = 5`,
reachable by 100 plain saves), saving a 101st distinct session in that same
millisecond triggers eviction, and the stable descending sort places the
just-appended entry last among the ties — the brand-new record itself is
evicted, so `load` returns `none` instead of the record just saved. -/
theorem save_upsert_survives_cex :
    tieStore = applySaves ((List.range 100).map (fun i => (i, (0 : ℚ), 0, 5))) []
    ∧ loadHistory 100 (saveHistory 100 7 0 5 tieStore) = none :=
  ⟨by decide, by decide⟩

/-- C5 (amended): whenever the saving timestamp is strictly newer than every
timestamp already in the store — the normal case, since `Date.now()` is
nondecreasing and evictions keep newest entries — `save(sessionId, time,
segmentIndex)` upserts the record, the record survives any eviction triggered
by the same save, and `load(sessionId)` returns exactly the record just
saved. With timestamp ties the just-saved entry itself can be evicted. -/
theorem save_then_load_latest {β : Type} [DecidableEq β] (k : β) (t : ℚ)
    (seg ts : Nat) (h : HistoryStore β) (hts : ∀ e ∈ h, e.2.ts < ts) :
    loadHistory k (saveHistory k t seg ts h) = some ⟨t, seg, ts⟩ := by
  simp only [saveHistory]
  by_cases hlen : 100 < (upsert k ⟨t, seg, ts⟩ h).length
  · rw [if_pos hlen]
    have hkv : (k, (⟨t, seg, ts⟩ : HistoryRecord)) ∈ upsert k ⟨t, seg, ts⟩ h :=
      mem_upsert_self k _ h
    have hothers : ∀ e ∈ upsert k ⟨t, seg, ts⟩ h,
        e ≠ (k, (⟨t, seg, ts⟩ : HistoryRecord)) → e.2.ts < ts := by
      intro e he hne
      rcases mem_upsert_elim he with h' | h'
      · exact absurd h' hne
      · exact hts e h'
    have hsorted := sortByTsDesc_sorted (upsert k ⟨t, seg, ts⟩ h)
    have hmem_s : (k, (⟨t, seg, ts⟩ : HistoryRecord)) ∈ sortByTsDesc (upsert k ⟨t, seg, ts⟩ h) :=
      (sortByTsDesc_perm _).mem_iff.mpr hkv
    obtain ⟨hd, tl, hcons⟩ : ∃ hd tl, sortByTsDesc (upsert k ⟨t, seg, ts⟩ h) = hd :: tl := by
      cases hs : sortByTsDesc (upsert k ⟨t, seg, ts⟩ h) with
      | nil => rw [hs] at hmem_s; simp at hmem_s
      | cons a b => exact ⟨a, b, rfl⟩
    have hhd : hd = (k, (⟨t, seg, ts⟩ : HistoryRecord)) := by
      by_contra hne
      have hhd_mem : hd ∈ upsert k ⟨t, seg, ts⟩ h :=
        (sortByTsDesc_perm _).mem_iff.mp (hcons ▸ List.mem_cons_self hd tl)
      have hlt : hd.2.ts < ts := hothers hd hhd_mem hne
      have hm : (k, (⟨t, seg, ts⟩ : HistoryRecord)) ∈ hd :: tl := hcons ▸ hmem_s
      rcases List.mem_cons.mp hm with h' | h'
      · exact hne h'.symm
      · rw [hcons] at hsorted
        have hle : ts ≤ hd.2.ts := (List.pairwise_cons.mp hsorted).1 _ h'
        omega
    have hkk : k ∈ ((sortByTsDesc (upsert k ⟨t, seg, ts⟩ h)).take 100).map (fun x => x.1) := by
      rw [hcons, show (100 : Nat) = 99 + 1 from rfl, List.take_succ_cons, List.map_cons, hhd]
      exact List.mem_cons_self _ _
    unfold loadHistory
    rw [find?_key_filter _ (fun e hek => by
      rw [decide_eq_true_eq]
      rw [hek]
      exact hkk)]
    rw [find?_upsert]
    rfl
  · rw [if_neg hlen]
    unfold loadHistory
    rw [find?_upsert]
    rfl

/-- C5 witness: saving with a strictly newer timestamp into a small store. -/
theorem save_then_load_latest_witness :
    loadHistory 1 (saveHistory 1 42 2 5 [(0, ⟨1, 0, 3⟩)])
      = some (⟨42, 2, 5⟩ : HistoryRecord) :=
  save_then_load_latest 1 42 2 5 [(0, ⟨1, 0, 3⟩)] (by decide)

/-! ### Helper lemmas about hexadecimal rendering -/

lemma hexDigitChar_mem : ∀ n, n < 16 → hexDigitChar n ∈ hexLowerChars := by decide

lemma hexCharVal_hexDigitChar : ∀ n, n < 16 → hexCharVal (hexDigitChar n) = n := by decide

lemma interpHexChars_append_digit (l : List Char) (ch : Char) :
    interpHexChars (l ++ [ch]) = 16 * interpHexChars l + hexCharVal ch := by
  unfold interpHexChars
  rw [List.foldl_append]
  rfl

lemma hexDigitsAux_interp : ∀ fuel n, n < 16 ^ fuel →
    interpHexChars (hexDigitsAux fuel n) = n := by
  intro fuel
  induction fuel with
  | zero =>
    intro n hn
    interval_cases n
    rfl
  | succ fuel ih =>
    intro n hn
    unfold hexDigitsAux
    by_cases h16 : n < 16
    · rw [if_pos h16]
      show 16 * 0 + hexCharVal (hexDigitChar n) = n
      rw [hexCharVal_hexDigitChar n h16]
      omega
    · rw [if_neg h16]
      rw [interpHexChars_append_digit]
      have hdiv : n / 16 < 16 ^ fuel := by
        rw [Nat.div_lt_iff_lt_mul (by norm_num)]
        calc n < 16 ^ (fuel + 1) := hn
          _ = 16 ^ fuel * 16 := by rw [pow_succ]
      rw [ih (n / 16) hdiv, hexCharVal_hexDigitChar (n % 16) (Nat.mod_lt n (by norm_num))]
      omega

lemma hexDigitsAux_length : ∀ fuel k n, n < 16 ^ k → 1 ≤ k →
    (hexDigitsAux fuel n).length ≤ k := by
  intro fuel
  induction fuel with
  | zero =>
    intro k n _ hk
    simp [hexDigitsAux]
  | succ fuel ih =>
    intro k n hn hk
    unfold hexDigitsAux
    by_cases h16 : n < 16
    · rw [if_pos h16]
      simpa using hk
    · rw [if_neg h16]
      rw [List.length_append]
      cases k with
      | zero => omega
      | succ k' =>
        have hk' : 1 ≤ k' := by
          by_contra hk0
          have : k' = 0 := by omega
          subst this
          simp [pow_one] at hn
          omega
        have hdiv : n / 16 < 16 ^ k' := by
          rw [Nat.div_lt_iff_lt_mul (by norm_num)]
          calc n < 16 ^ (k' + 1) := hn
            _ = 16 ^ k' * 16 := by rw [pow_succ]
        have := ih k' (n / 16) hdiv hk'
        simp only [List.length_cons, List.length_nil]
        omega

lemma hexDigitsAux_mem : ∀ fuel n ch, ch ∈ hexDigitsAux fuel n → ch ∈ hexLowerChars := by
  intro fuel
  induction fuel with
  | zero =>
    intro n ch hch
    simp [hexDigitsAux] at hch
  | succ fuel ih =>
    intro n ch hch
    unfold hexDigitsAux at hch
    by_cases h16 : n < 16
    · rw [if_pos h16] at hch
      rw [List.mem_singleton.mp hch]
      exact hexDigitChar_mem n h16
    · rw [if_neg h16] at hch
      rcases List.mem_append.mp hch with h' | h'
      · exact ih (n / 16) ch h'
      · rw [List.mem_singleton.mp h']
        exact hexDigitChar_mem (n % 16) (Nat.mod_lt n (by norm_num))

lemma interp_zeros : ∀ m, List.foldl (fun a ch => 16 * a + hexCharVal ch) 0
    (List.replicate m '0') = 0 := by
  intro m
  induction m with
  | zero => rfl
  | succ m ih =>
    rw [List.replicate_succ, List.foldl_cons]
    show List.foldl _ (16 * 0 + hexCharVal '0') _ = 0
    rw [show 16 * 0 + hexCharVal '0' = 0 from by decide]
    exact ih

lemma interpHexChars_padStart (m : Nat) (l : List Char) :
    interpHexChars (List.replicate m '0' ++ l) = interpHexChars l := by
  unfold interpHexChars
  rw [List.foldl_append, interp_zeros]

lemma natToHexChars_fuel_ok (n : Nat) : n < 16 ^ (n + 1) :=
  lt_of_lt_of_le (Nat.lt_pow_self (by norm_num) n)
    (Nat.pow_le_pow_right (by norm_num) (Nat.le_succ n))

/-- C8: every packed color `c < 2^24` renders as `'#'` followed by the
zero-padded 6-digit lowercase hexadecimal of `c` (the padded digit string has
length 6, uses only lowercase hex digits, and denotes `c`); the sentinel
16777215 renders as `#ffffff` and 255 renders as `#0000ff`. -/
theorem color_hex_format (c : Nat) (hc : c < 2 ^ 24) :
    colorHex c = '#' :: padStart 6 '0' (natToHexChars c)
    ∧ (padStart 6 '0' (natToHexChars c)).length = 6
    ∧ (∀ ch ∈ padStart 6 '0' (natToHexChars c), ch ∈ hexLowerChars)
    ∧ interpHexChars (padStart 6 '0' (natToHexChars c)) = c
    ∧ colorHex 16777215 = "#ffffff".toList
    ∧ colorHex 255 = "#0000ff".toList := by
  have hc16 : c < 16 ^ 6 := by
    calc c < 2 ^ 24 := hc
      _ = 16 ^ 6 := by norm_num
  have hlen : (natToHexChars c).length ≤ 6 :=
    hexDigitsAux_length (c + 1) 6 c hc16 (by norm_num)
  refine ⟨?_, ?_, ?_, ?_, by decide, by decide⟩
  · by_cases hw : c = 16777215
    · subst hw
      decide
    · unfold colorHex
      rw [if_neg hw]
  · unfold padStart
    rw [List.length_append, List.length_replicate]
    omega
  · intro ch hch
    unfold padStart at hch
    rcases List.mem_append.mp hch with h' | h'
    · rw [List.eq_of_mem_replicate h']
      decide
    · exact hexDigitsAux_mem (c + 1) c ch h'
  · unfold padStart
    rw [interpHexChars_padStart]
    exact hexDigitsAux_interp (c + 1) c (natToHexChars_fuel_ok c)

/-- C8 witness: color 255. -/
theorem color_hex_format_witness :
    255 < 2 ^ 24
    ∧ colorHex 255 = '#' :: padStart 6 '0' (natToHexChars 255)
    ∧ interpHexChars (padStart 6 '0' (natToHexChars 255)) = 255 :=
  ⟨by norm_num, (color_hex_format 255 (by norm_num)).1,
    (color_hex_format 255 (by norm_num)).2.2.2.1⟩

end BiliPlayer
